import Mathlib

/-!
Verification of the bounded-memory streaming data engine of
`fasthttp_hpdummy_server` against its specification.

The definitions below are a shallow embedding of the Go source:
  * `common/stream.go` — `StreamWriter.Write` (bulk fast path and the
    paced/framed chunk loop), `StreamWriter.Read`, `StreamWriter.WriteTo`,
    `autoCleanupReader`, `InitBinaryBufferPool`, `NewChunkBufferPool`;
  * `common/types.go` + `main.go` — the `Draining` flag and
    `SetConnectionHeader`;
  * `binary/handler.go` — `parseSize`.

Loops that the Go source drives by a decreasing byte counter are embedded
with an explicit fuel parameter initialised to that counter; every loop
iteration in the source consumes at least one byte when the borrowed buffer
is non-empty, so a fuel of `remaining` bytes is always sufficient (proved in
the fuel-adequacy lemmas below).  Machine integers are modelled as `Nat`
(all counters involved are non-negative), except `parseSize`, which works in
`Int` with explicit two's-complement wrap-around where the Go code can
overflow `int64`.

Sinks are modelled as error-free unless a claim is about the error path:
the emission of a stream is recorded as a trace of events (`write n`,
`flush`, `sleep ms`) delivered to the `bufio.Writer`.
-/

namespace HP

/-- One observable action performed on the output sink by
`StreamWriter.Write`: a write of `n` bytes, a flush, or a sleep of `ms`
milliseconds between chunks. -/
inductive Ev where
  | write (n : Nat)
  | flush
  | sleep (ms : Nat)
deriving DecidableEq, Repr

/-- The bulk fast path of `StreamWriter.Write` (stream.go:59-88):
`for remaining > 0 { writeSize := min(bufferSize, remaining); w.Write(buf[:writeSize]); remaining -= writeSize }`.
Returns the list of write sizes issued to an error-free sink.  `fuel`
bounds the iterations; `fuel = remaining` suffices when `0 < bufSize`
(each iteration consumes at least one byte).  With `bufSize = 0` the Go
loop never terminates; the embedding returns `[]` there and every theorem
assumes a non-empty buffer, which the buffer pool guarantees. -/
def bulkAux (bufSize : Nat) : Nat → Nat → List Nat
  | 0, _ => []
  | _ + 1, 0 => []
  | fuel + 1, r + 1 =>
    if bufSize = 0 then []
    else min bufSize (r + 1) :: bulkAux bufSize fuel (r + 1 - min bufSize (r + 1))

/-- Write sizes of the bulk fast path of `StreamWriter.Write` for a total
of `total` bytes with a borrowed buffer of `bufSize` bytes. -/
def bulkWriteSizes (bufSize total : Nat) : List Nat :=
  bulkAux bufSize total total

/-- The inner per-chunk write loop of the paced path of
`StreamWriter.Write` (stream.go:108-124): repeatedly write
`min(chunkBytesToWrite - chunkBytesWritten, bufferSize)` bytes from the
start of the buffer until the chunk's bytes are written.  Fuelled like
`bulkAux`. -/
def chunkWritesAux (bufSize : Nat) : Nat → Nat → List Nat
  | 0, _ => []
  | _ + 1, 0 => []
  | fuel + 1, t + 1 =>
    if bufSize = 0 then []
    else min (t + 1) bufSize :: chunkWritesAux bufSize fuel (t + 1 - min (t + 1) bufSize)

/-- Write sizes issued for one chunk of `toWrite` bytes in the paced path. -/
def chunkWrites (bufSize toWrite : Nat) : List Nat :=
  chunkWritesAux bufSize toWrite toWrite

/-- The chunk loop of the paced/framed path of `StreamWriter.Write`
(stream.go:98-136), as a trace of sink events.  `chunksLeft` counts the
remaining iterations (`totalChunks - i` in the source), `remaining` the
bytes still to send, `i` the current chunk index.  Before every chunk with
`i > 0` and `DelayMs > 0` the goroutine sleeps; after the chunk's writes
the sink is flushed when `FlushPerChunk` is set. -/
def chunkLoop (bufSize chunkSize delayMs : Nat) (flushPerChunk : Bool) :
    Nat → Nat → Nat → List Ev
  | 0, _, _ => []
  | k + 1, remaining, i =>
    (if 0 < i ∧ 0 < delayMs then [Ev.sleep delayMs] else [])
      ++ (chunkWrites bufSize (min chunkSize remaining)).map Ev.write
      ++ (if flushPerChunk then [Ev.flush] else [])
      ++ chunkLoop bufSize chunkSize delayMs flushPerChunk k
          (remaining - min chunkSize remaining) (i + 1)

/-- Two's-complement wrap-around re-centring an integer on the signed
64-bit range `[-2^63, 2^63 - 1]`: the value a Go `int64` expression holds
after overflow. -/
def int64Wrap (x : Int) : Int :=
  (x + 2 ^ 63) % 2 ^ 64 - 2 ^ 63

/-- The `totalChunks` computation of stream.go:91:
`int((sw.TotalSize + int64(sw.ChunkSize) - 1) / int64(sw.ChunkSize))`.
The sum is `int64` arithmetic, so it wraps: for
`totalSize + chunkSize - 1 > 2^63 - 1` the dividend is negative and the
quotient non-positive.  The division truncates toward zero as in Go; the
outer `int` conversion is the identity on 64-bit platforms.  (`chunkSize`
itself is an in-range `int` in the program; theorems only use values
`≤ 2^63 - 1`.) -/
def totalChunksInt64 (totalSize chunkSize : Nat) : Int :=
  Int.tdiv (int64Wrap ((totalSize : Int) + (chunkSize : Int) - 1)) (chunkSize : Int)

/-- `StreamWriter.Write` (stream.go:54-143) on an error-free sink, as a
trace of sink events.  The fast path (DelayMs = 0 and not FlushPerChunk)
writes the buffer repeatedly and flushes once; otherwise the paced path
computes `totalChunks` in `int64` arithmetic, returns immediately if
`totalChunks <= 0`, and runs the chunk loop followed by a final flush. -/
def streamWriterWrite (totalSize chunkSize delayMs : Nat) (flushPerChunk : Bool)
    (bufSize : Nat) : List Ev :=
  if delayMs = 0 ∧ flushPerChunk = false then
    (bulkWriteSizes bufSize totalSize).map Ev.write ++ [Ev.flush]
  else if totalChunksInt64 totalSize chunkSize ≤ 0 then []
  else chunkLoop bufSize chunkSize delayMs flushPerChunk
      (totalChunksInt64 totalSize chunkSize).toNat totalSize 0
    ++ [Ev.flush]

theorem int64Wrap_eq_self (x : Int) (h0 : 0 ≤ x) (h1 : x ≤ 2 ^ 63 - 1) :
    int64Wrap x = x := by
  have e1 : (2 : Int) ^ 63 = 9223372036854775808 := by norm_num
  have e2 : (2 : Int) ^ 64 = 18446744073709551616 := by norm_num
  rw [int64Wrap, e1, e2] at *
  rw [Int.emod_eq_of_lt (by omega) (by omega)]
  omega

/-- In the wrap-free region the stream.go:91 computation agrees with the
mathematical ceiling `(totalSize + chunkSize - 1) / chunkSize`. -/
theorem totalChunksInt64_eq_ceil (totalSize chunkSize : Nat) (hcs : 0 < chunkSize)
    (hnowrap : totalSize + chunkSize - 1 ≤ 2 ^ 63 - 1) :
    totalChunksInt64 totalSize chunkSize
      = (((totalSize + chunkSize - 1) / chunkSize : Nat) : Int) := by
  have hx : (totalSize : Int) + (chunkSize : Int) - 1
      = ((totalSize + chunkSize - 1 : Nat) : Int) := by omega
  have hr : ((totalSize + chunkSize - 1 : Nat) : Int) ≤ 2 ^ 63 - 1 := by
    have e1 : (2 : Int) ^ 63 = 9223372036854775808 := by norm_num
    have e2 : (2 : Nat) ^ 63 = 9223372036854775808 := by norm_num
    rw [e1]
    rw [e2] at hnowrap
    omega
  rw [totalChunksInt64, hx,
    int64Wrap_eq_self _ (Int.ofNat_nonneg _) hr]
  rfl

/-- `StreamWriter.WriteTo` (stream.go:179-205) on an error-free sink: write
sizes of the full-buffer fast loop followed by the final partial write.
Fuelled; `fuel = remaining` suffices for a non-empty buffer. -/
def writeToAux (bufSize : Nat) : Nat → Nat → List Nat
  | 0, _ => []
  | fuel + 1, remaining =>
    if bufSize = 0 then []
    else if bufSize ≤ remaining then
      bufSize :: writeToAux bufSize fuel (remaining - bufSize)
    else if 0 < remaining then [remaining] else []

/-- Write sizes of `StreamWriter.WriteTo` for `total` bytes. -/
def writeToSizes (bufSize total : Nat) : List Nat :=
  writeToAux bufSize total total

/-- Total bytes carried by the write events of a trace. -/
def writeBytesSum (evs : List Ev) : Nat :=
  (evs.map fun e => match e with | .write n => n | _ => 0).sum

/-! ### Fuel adequacy and sums -/

theorem bulkAux_sum (bufSize : Nat) (hb : 0 < bufSize) :
    ∀ fuel remaining, remaining ≤ fuel → (bulkAux bufSize fuel remaining).sum = remaining := by
  intro fuel
  induction fuel with
  | zero => intro remaining h; interval_cases remaining; rfl
  | succ f ih =>
    intro remaining h
    match remaining with
    | 0 => rfl
    | r + 1 =>
      rw [bulkAux, if_neg (Nat.pos_iff_ne_zero.mp hb), List.sum_cons,
        ih (r + 1 - min bufSize (r + 1)) (by omega)]
      omega

theorem chunkWritesAux_sum (bufSize : Nat) (hb : 0 < bufSize) :
    ∀ fuel toWrite, toWrite ≤ fuel →
      (chunkWritesAux bufSize fuel toWrite).sum = toWrite := by
  intro fuel
  induction fuel with
  | zero => intro t h; interval_cases t; rfl
  | succ f ih =>
    intro t h
    match t with
    | 0 => rfl
    | t + 1 =>
      rw [chunkWritesAux, if_neg (Nat.pos_iff_ne_zero.mp hb), List.sum_cons,
        ih (t + 1 - min (t + 1) bufSize) (by omega)]
      omega

theorem chunkWrites_sum (bufSize toWrite : Nat) (hb : 0 < bufSize) :
    (chunkWrites bufSize toWrite).sum = toWrite :=
  chunkWritesAux_sum bufSize hb toWrite toWrite (Nat.le_refl _)

theorem writeToAux_sum (bufSize : Nat) (hb : 0 < bufSize) :
    ∀ fuel remaining, remaining ≤ fuel →
      (writeToAux bufSize fuel remaining).sum = remaining := by
  intro fuel
  induction fuel with
  | zero => intro remaining h; interval_cases remaining; rfl
  | succ f ih =>
    intro remaining h
    rw [writeToAux, if_neg (Nat.pos_iff_ne_zero.mp hb)]
    by_cases hge : bufSize ≤ remaining
    · rw [if_pos hge, List.sum_cons, ih (remaining - bufSize) (by omega)]
      omega
    · rw [if_neg hge]
      by_cases hr : 0 < remaining
      · rw [if_pos hr]; simp
      · rw [if_neg hr, List.sum_nil]; omega

theorem writeBytesSum_writes (ws : List Nat) (rest : List Ev) :
    writeBytesSum (ws.map Ev.write ++ rest) = ws.sum + writeBytesSum rest := by
  induction ws with
  | nil => simp [writeBytesSum]
  | cons w ws ih =>
    simp only [List.map_cons, List.cons_append, writeBytesSum, List.sum_cons] at *
    omega

/-- C1: an emission in known-length mode (`StreamWriter.Write` with
`DelayMs = 0` and `FlushPerChunk = false`, or `StreamWriter.WriteTo`) on an
error-free sink delivers exactly `TotalSize` bytes: the lengths of all
writes sum to the total, for every `totalSize ≥ 0` and non-empty borrowed
buffer. -/
theorem known_length_delivers_total (totalSize chunkSize bufSize : Nat)
    (hb : 0 < bufSize) :
    writeBytesSum (streamWriterWrite totalSize chunkSize 0 false bufSize) = totalSize
      ∧ (writeToSizes bufSize totalSize).sum = totalSize := by
  constructor
  · rw [streamWriterWrite, if_pos ⟨rfl, rfl⟩, writeBytesSum_writes]
    rw [bulkWriteSizes, bulkAux_sum bufSize hb totalSize totalSize (Nat.le_refl _)]
    rfl
  · exact writeToAux_sum bufSize hb totalSize totalSize (Nat.le_refl _)

/-- Witness for C1 at `totalSize = 11111`, `bufSize = 1024`. -/
theorem known_length_delivers_total_witness :
    0 < 1024
      ∧ (writeBytesSum (streamWriterWrite 11111 1024 0 false 1024) = 11111
        ∧ (writeToSizes 1024 11111).sum = 11111) :=
  ⟨by decide, known_length_delivers_total 11111 1024 1024 (by decide)⟩

/-! ### Paced mode: flushed units, delays -/

/-- The per-chunk byte counts of the paced path: `chunksLeft` entries, each
`min(chunkSize, remaining)` at its point in the loop (stream.go:103-106). -/
def chunkBytesList (chunkSize : Nat) : Nat → Nat → List Nat
  | 0, _ => []
  | k + 1, remaining =>
    min chunkSize remaining
      :: chunkBytesList chunkSize k (remaining - min chunkSize remaining)

/-- Split a sink trace at its flushes: the bytes written before each flush,
in order.  Writes after the last flush (never flushed) are dropped. -/
def flushUnitsAux : List Ev → Nat → List Nat
  | [], _ => []
  | .write n :: rest, acc => flushUnitsAux rest (acc + n)
  | .flush :: rest, acc => acc :: flushUnitsAux rest 0
  | .sleep _ :: rest, acc => flushUnitsAux rest acc

/-- The sizes of the discretely flushed units of a sink trace. -/
def flushUnits (evs : List Ev) : List Nat :=
  flushUnitsAux evs 0

/-- Number of flushes in a trace. -/
def flushCount (evs : List Ev) : Nat :=
  evs.countP fun e => match e with | .flush => true | _ => false

/-- Number of sleeps in a trace. -/
def sleepCount (evs : List Ev) : Nat :=
  evs.countP fun e => match e with | .sleep _ => true | _ => false

/-- Total milliseconds slept in a trace. -/
def sleepMsSum (evs : List Ev) : Nat :=
  (evs.map fun e => match e with | .sleep ms => ms | _ => 0).sum

theorem flushUnitsAux_writes (ws : List Nat) (rest : List Ev) (acc : Nat) :
    flushUnitsAux (ws.map Ev.write ++ rest) acc = flushUnitsAux rest (acc + ws.sum) := by
  induction ws generalizing acc with
  | nil => simp
  | cons w ws ih =>
    calc flushUnitsAux ((w :: ws).map Ev.write ++ rest) acc
        = flushUnitsAux (ws.map Ev.write ++ rest) (acc + w) := rfl
      _ = flushUnitsAux rest (acc + w + ws.sum) := ih _
      _ = flushUnitsAux rest (acc + (w :: ws).sum) := by
          rw [List.sum_cons, ← Nat.add_assoc]

theorem flushUnitsAux_sleep_pre (i delayMs : Nat) (rest : List Ev) (acc : Nat) :
    flushUnitsAux ((if 0 < i ∧ 0 < delayMs then [Ev.sleep delayMs] else []) ++ rest) acc
      = flushUnitsAux rest acc := by
  by_cases h : 0 < i ∧ 0 < delayMs
  · rw [if_pos h]; rfl
  · rw [if_neg h]; rfl

theorem flushUnits_chunkLoop (bufSize chunkSize delayMs : Nat) (hb : 0 < bufSize) :
    ∀ k remaining i,
      flushUnitsAux (chunkLoop bufSize chunkSize delayMs true k remaining i) 0
        = chunkBytesList chunkSize k remaining := by
  intro k
  induction k with
  | zero => intro remaining i; rfl
  | succ k ih =>
    intro remaining i
    rw [chunkLoop]
    simp only [List.append_assoc]
    rw [flushUnitsAux_sleep_pre, flushUnitsAux_writes, chunkWrites_sum _ _ hb,
      Nat.zero_add]
    show min chunkSize remaining
        :: flushUnitsAux (chunkLoop bufSize chunkSize delayMs true k
            (remaining - min chunkSize remaining) (i + 1)) 0
      = chunkBytesList chunkSize (k + 1) remaining
    rw [ih, chunkBytesList]

theorem countP_writes_eq_zero (p : Ev → Bool) (hw : ∀ n, p (Ev.write n) = false)
    (ws : List Nat) : (ws.map Ev.write).countP p = 0 := by
  induction ws with
  | nil => rfl
  | cons w ws ih => simp [List.countP_cons, hw, ih]

theorem flushCount_chunkLoop (bufSize chunkSize delayMs : Nat) :
    ∀ k remaining i,
      flushCount (chunkLoop bufSize chunkSize delayMs true k remaining i) = k := by
  intro k
  induction k with
  | zero => intro remaining i; rfl
  | succ k ih =>
    intro remaining i
    rw [chunkLoop]
    simp only [flushCount, List.countP_append] at ih ⊢
    rw [countP_writes_eq_zero _ (fun _ => rfl), ih]
    by_cases h : 0 < i ∧ 0 < delayMs
    · rw [if_pos h]
      simp [List.countP_cons, List.countP_nil]
      omega
    · rw [if_neg h]
      simp [List.countP_cons, List.countP_nil]
      omega

/-- Bounds for `totalChunks = (total + chunkSize - 1) / chunkSize`:
when `0 < total` it is the least `n` with `total ≤ chunkSize * n`. -/
theorem totalChunks_bounds (total chunkSize : Nat) (hcs : 0 < chunkSize)
    (ht : 0 < total) :
    total ≤ chunkSize * ((total + chunkSize - 1) / chunkSize)
      ∧ chunkSize * ((total + chunkSize - 1) / chunkSize - 1) < total := by
  have hdm := Nat.div_add_mod (total + chunkSize - 1) chunkSize
  have hlt := Nat.mod_lt (total + chunkSize - 1) hcs
  have hq : 0 < (total + chunkSize - 1) / chunkSize := by
    rcases Nat.eq_zero_or_pos ((total + chunkSize - 1) / chunkSize) with h | h
    · rw [h, Nat.mul_zero] at hdm
      omega
    · exact h
  have hmul : chunkSize * ((total + chunkSize - 1) / chunkSize)
      = chunkSize * ((total + chunkSize - 1) / chunkSize - 1) + chunkSize := by
    rcases Nat.exists_eq_add_of_lt hq with ⟨m, hm⟩
    rw [show (total + chunkSize - 1) / chunkSize = m + 1 by omega]
    rw [Nat.mul_succ, Nat.add_sub_cancel]
  constructor <;> omega

theorem chunkBytesList_spec (chunkSize : Nat) (_hcs : 0 < chunkSize) :
    ∀ k remaining, chunkSize * k < remaining → remaining ≤ chunkSize * (k + 1) →
      (chunkBytesList chunkSize (k + 1) remaining).length = k + 1
        ∧ (chunkBytesList chunkSize (k + 1) remaining).sum = remaining
        ∧ (chunkBytesList chunkSize (k + 1) remaining).getLast?
            = some (remaining - chunkSize * k) := by
  intro k
  induction k with
  | zero =>
    intro remaining hlo hhi
    rw [Nat.mul_zero] at hlo
    rw [Nat.mul_one] at hhi
    have hmin : min chunkSize remaining = remaining := by omega
    rw [chunkBytesList, hmin]
    have hz : remaining - remaining = 0 := by omega
    rw [hz]
    refine ⟨rfl, ?_, ?_⟩
    · rw [chunkBytesList, List.sum_cons, List.sum_nil]
      omega
    · rw [chunkBytesList, Nat.mul_zero, Nat.sub_zero]
      rfl
  | succ k ih =>
    intro remaining hlo hhi
    have hk1 : chunkSize * (k + 1) = chunkSize * k + chunkSize := Nat.mul_succ _ _
    have hk2 : chunkSize * (k + 1 + 1) = chunkSize * (k + 1) + chunkSize :=
      Nat.mul_succ _ _
    have hmin : min chunkSize remaining = chunkSize := by omega
    obtain ⟨ihlen, ihsum, ihlast⟩ :=
      ih (remaining - chunkSize) (by omega) (by omega)
    rw [chunkBytesList, hmin]
    refine ⟨by rw [List.length_cons, ihlen], ?_, ?_⟩
    · rw [List.sum_cons, ihsum]
      omega
    · have hstep : (chunkSize
            :: chunkBytesList chunkSize (k + 1) (remaining - chunkSize)).getLast?
          = (chunkBytesList chunkSize (k + 1) (remaining - chunkSize)).getLast? := rfl
      rw [hstep, ihlast]
      have : remaining - chunkSize - chunkSize * k = remaining - chunkSize * (k + 1) := by
        omega
      rw [this]

/-- C2 (counterexample): at `TotalSize = 2^63 - 1` (a legal `int64` value)
and `ChunkSize = 1024`, stream.go:91 computes
`TotalSize + 1024 - 1 = 2^63 + 1022` in `int64`, which wraps negative, so
`totalChunks <= 0` triggers the early return at stream.go:92-94 and the
emission performs zero per-chunk flushes — while
`ceil(totalSize/chunkSize) = 2^53`.  This refutes "exactly
`ceil(total_size/chunk_size)` per-chunk flushes for every
`total_size >= 0`". -/
theorem paced_wrap_zero_flushes :
    streamWriterWrite (2 ^ 63 - 1) 1024 0 true 1024 = []
      ∧ flushCount (streamWriterWrite (2 ^ 63 - 1) 1024 0 true 1024) = 0
      ∧ ((2 ^ 63 - 1) + 1024 - 1) / 1024 = 9007199254740992 :=
  ⟨by decide, by decide, by decide⟩

/-- C2 (amended): for `totalSize` in the wrap-free region of the
stream.go:91 `int64` computation (`totalSize + chunkSize - 1 ≤ 2^63 - 1`),
paced emission with `FlushPerChunk = true` on an error-free sink is the
chunk loop at `ceil(totalSize/chunkSize)` chunks followed by the final
flush (empty for `totalSize = 0`); the chunk loop performs exactly
`ceil(totalSize/chunkSize)` per-chunk flushes whose flushed units carry
exactly the per-chunk byte counts `min(chunkSize, remaining)`, the final
one of size `totalSize - chunkSize * (ceil(totalSize/chunkSize) - 1)`,
together summing to `totalSize`.  (Beyond that region the `int64` sum
wraps and the emission is empty.) -/
theorem paced_flush_units (totalSize chunkSize delayMs bufSize : Nat)
    (hcs : 0 < chunkSize) (hb : 0 < bufSize)
    (hnowrap : totalSize + chunkSize - 1 ≤ 2 ^ 63 - 1) :
    (0 < totalSize →
      streamWriterWrite totalSize chunkSize delayMs true bufSize
        = chunkLoop bufSize chunkSize delayMs true
            ((totalSize + chunkSize - 1) / chunkSize) totalSize 0 ++ [Ev.flush])
    ∧ (totalSize = 0 →
        streamWriterWrite totalSize chunkSize delayMs true bufSize = [])
    ∧ flushCount (chunkLoop bufSize chunkSize delayMs true
        ((totalSize + chunkSize - 1) / chunkSize) totalSize 0)
      = (totalSize + chunkSize - 1) / chunkSize
    ∧ flushUnits (chunkLoop bufSize chunkSize delayMs true
        ((totalSize + chunkSize - 1) / chunkSize) totalSize 0)
      = chunkBytesList chunkSize ((totalSize + chunkSize - 1) / chunkSize) totalSize
    ∧ (chunkBytesList chunkSize ((totalSize + chunkSize - 1) / chunkSize)
        totalSize).length = (totalSize + chunkSize - 1) / chunkSize
    ∧ (chunkBytesList chunkSize ((totalSize + chunkSize - 1) / chunkSize)
        totalSize).sum = totalSize
    ∧ (0 < totalSize →
        (chunkBytesList chunkSize ((totalSize + chunkSize - 1) / chunkSize)
            totalSize).getLast?
          = some (totalSize
              - chunkSize * ((totalSize + chunkSize - 1) / chunkSize - 1))) := by
  have hnotfast : ¬(delayMs = 0 ∧ (true : Bool) = false) := fun hc =>
    absurd hc.2 (by decide)
  have e2 : (2 : Nat) ^ 63 = 9223372036854775808 := by norm_num
  refine ⟨?_, ?_, flushCount_chunkLoop bufSize chunkSize delayMs _ totalSize 0,
    flushUnits_chunkLoop bufSize chunkSize delayMs hb _ totalSize 0, ?_⟩
  · intro ht
    have hn : 0 < (totalSize + chunkSize - 1) / chunkSize :=
      Nat.div_pos (by omega) hcs
    rw [streamWriterWrite, if_neg hnotfast,
      totalChunksInt64_eq_ceil totalSize chunkSize hcs hnowrap, if_neg (by omega)]
    rfl
  · intro h0
    subst h0
    rw [streamWriterWrite, if_neg hnotfast,
      totalChunksInt64_eq_ceil 0 chunkSize hcs hnowrap,
      show (0 + chunkSize - 1) / chunkSize = 0 from by
        rw [Nat.zero_add, Nat.div_eq_of_lt (by omega)],
      if_pos (by omega)]
  by_cases ht : 0 < totalSize
  · obtain ⟨h1, h2⟩ := totalChunks_bounds totalSize chunkSize hcs ht
    have hn : 0 < (totalSize + chunkSize - 1) / chunkSize := by
      rcases Nat.eq_zero_or_pos ((totalSize + chunkSize - 1) / chunkSize) with h | h
      · rw [h, Nat.mul_zero] at h1
        omega
      · exact h
    have hsplit : (totalSize + chunkSize - 1) / chunkSize
        = ((totalSize + chunkSize - 1) / chunkSize - 1) + 1 := by omega
    rw [hsplit] at h1 ⊢
    obtain ⟨hl, hs, hlast⟩ := chunkBytesList_spec chunkSize hcs _ totalSize h2 h1
    refine ⟨hl, hs, fun _ => ?_⟩
    rw [hlast, Nat.add_sub_cancel]
  · have hz : totalSize = 0 := by omega
    subst hz
    have hn : (0 + chunkSize - 1) / chunkSize = 0 := by
      rw [Nat.zero_add, Nat.div_eq_of_lt (by omega)]
    rw [hn]
    exact ⟨rfl, rfl, fun h => absurd h (by omega)⟩

/-- Witness for C2 (amended) at `totalSize = 5120`, `chunkSize = 1024`,
`bufSize = 1024`, `delayMs = 50`: wrap-free, 5 chunks. -/
theorem paced_flush_units_witness :
    (0 < 1024 ∧ 5120 + 1024 - 1 ≤ 2 ^ 63 - 1 ∧ 0 < 5120)
      ∧ streamWriterWrite 5120 1024 50 true 1024
        = chunkLoop 1024 1024 50 true ((5120 + 1024 - 1) / 1024) 5120 0
          ++ [Ev.flush]
      ∧ flushCount (chunkLoop 1024 1024 50 true ((5120 + 1024 - 1) / 1024) 5120 0)
        = (5120 + 1024 - 1) / 1024 :=
  ⟨⟨by decide, by decide, by decide⟩,
    (paced_flush_units 5120 1024 50 1024 (by decide) (by decide) (by decide)).1
      (by decide),
    (paced_flush_units 5120 1024 50 1024 (by decide) (by decide)
      (by decide)).2.2.1⟩

/-- C3 (counterexample): in paced/framed mode with `totalSize = 0` the
chunk loop is skipped by the early return at `totalChunks <= 0`
(stream.go:92-94) and the sink receives no flush at all: the whole trace
is empty, contradicting "the sink is flushed once more at the end
unconditionally ... total_size = 0 ... still receives that final flush". -/
theorem paced_zero_total_no_flush :
    streamWriterWrite 0 1024 50 true 1024 = []
      ∧ flushCount (streamWriterWrite 0 1024 50 true 1024) = 0 := by
  decide

/-- C3 (amended): in paced/framed mode (`DelayMs > 0` or
`FlushPerChunk = true`) on an error-free sink, for `totalSize` in the
wrap-free region of the stream.go:91 `int64` computation
(`totalSize + chunkSize - 1 ≤ 2^63 - 1`), when `totalSize > 0` the trace
ends with the final flush after the chunk loop; when `totalSize = 0` the
early return at `totalChunks <= 0` makes the emission return immediately
with an empty trace (zero bytes, no flush).  Beyond the wrap-free region
the `int64` sum wraps negative and the same early return again emits
nothing. -/
theorem paced_final_flush (totalSize chunkSize delayMs bufSize : Nat)
    (flushPerChunk : Bool) (hcs : 0 < chunkSize)
    (hpaced : 0 < delayMs ∨ flushPerChunk = true)
    (hnowrap : totalSize + chunkSize - 1 ≤ 2 ^ 63 - 1) :
    (0 < totalSize →
      (streamWriterWrite totalSize chunkSize delayMs flushPerChunk bufSize).getLast?
        = some Ev.flush)
    ∧ streamWriterWrite 0 chunkSize delayMs flushPerChunk bufSize = [] := by
  have hnotfast : ¬(delayMs = 0 ∧ flushPerChunk = false) := by
    rcases hpaced with h | h
    · intro hc; omega
    · intro hc; rw [h] at hc; exact absurd hc.2 (by decide)
  have e2 : (2 : Nat) ^ 63 = 9223372036854775808 := by norm_num
  have hnowrap0 : 0 + chunkSize - 1 ≤ 2 ^ 63 - 1 := by
    rw [e2] at hnowrap ⊢
    omega
  constructor
  · intro ht
    have hn : 0 < (totalSize + chunkSize - 1) / chunkSize :=
      Nat.div_pos (by omega) hcs
    rw [streamWriterWrite, if_neg hnotfast,
      totalChunksInt64_eq_ceil totalSize chunkSize hcs hnowrap, if_neg (by omega)]
    exact List.getLast?_concat _
  · rw [streamWriterWrite, if_neg hnotfast,
      totalChunksInt64_eq_ceil 0 chunkSize hcs hnowrap0,
      show (0 + chunkSize - 1) / chunkSize = 0 from by
        rw [Nat.zero_add, Nat.div_eq_of_lt (by omega)],
      if_pos (by omega)]

/-- Witness for C3 (amended) at `totalSize = 5120`, `chunkSize = 1024`,
`delayMs = 50`, `flushPerChunk = true`. -/
theorem paced_final_flush_witness :
    (0 < 1024 ∧ (0 < 50 ∨ True) ∧ 5120 + 1024 - 1 ≤ 2 ^ 63 - 1)
      ∧ (streamWriterWrite 5120 1024 50 true 1024).getLast? = some Ev.flush :=
  ⟨⟨by decide, Or.inl (by decide), by decide⟩,
    (paced_final_flush 5120 1024 50 1024 true (by decide) (Or.inl (by decide))
      (by decide)).1 (by decide)⟩

/-! ### C7: inter-chunk delay placement -/

theorem sleepCount_flush_if (flushPerChunk : Bool) :
    (List.countP (fun e => match e with | Ev.sleep _ => true | _ => false)
      (if flushPerChunk then [Ev.flush] else [])) = 0 := by
  cases flushPerChunk <;> rfl

theorem sleepCount_chunkLoop_pos (bufSize chunkSize delayMs : Nat)
    (flushPerChunk : Bool) (hd : 0 < delayMs) :
    ∀ k remaining i, 0 < i →
      sleepCount (chunkLoop bufSize chunkSize delayMs flushPerChunk k remaining i)
        = k := by
  intro k
  induction k with
  | zero => intro remaining i _; rfl
  | succ k ih =>
    intro remaining i hi
    rw [chunkLoop]
    simp only [sleepCount, List.countP_append] at ih ⊢
    rw [countP_writes_eq_zero _ (fun _ => rfl), ih _ (i + 1) (by omega),
      if_pos ⟨hi, hd⟩, sleepCount_flush_if]
    simp [List.countP_cons]
    omega

theorem sleepMsSum_writes (ws : List Nat) :
    sleepMsSum (ws.map Ev.write) = 0 := by
  induction ws with
  | nil => rfl
  | cons w ws ih =>
    simp only [sleepMsSum, List.map_cons, List.sum_cons] at ih ⊢
    omega

theorem sleepMsSum_flush_if (flushPerChunk : Bool) :
    sleepMsSum (if flushPerChunk then [Ev.flush] else []) = 0 := by
  cases flushPerChunk <;> rfl

theorem sleepMsSum_chunkLoop_pos (bufSize chunkSize delayMs : Nat)
    (flushPerChunk : Bool) (hd : 0 < delayMs) :
    ∀ k remaining i, 0 < i →
      sleepMsSum (chunkLoop bufSize chunkSize delayMs flushPerChunk k remaining i)
        = k * delayMs := by
  intro k
  induction k with
  | zero => intro remaining i _; simp [sleepMsSum, chunkLoop]
  | succ k ih =>
    intro remaining i hi
    rw [chunkLoop]
    simp only [sleepMsSum, List.map_append, List.sum_append] at ih ⊢
    rw [ih _ (i + 1) (by omega), if_pos ⟨hi, hd⟩]
    have h1 : (List.map (fun e => match e with | Ev.sleep ms => ms | _ => 0)
        [Ev.sleep delayMs]).sum = delayMs := by
      simp
    have h2 := sleepMsSum_writes (chunkWrites bufSize (min chunkSize remaining))
    have h3 := sleepMsSum_flush_if flushPerChunk
    simp only [sleepMsSum] at h2 h3
    rw [h1, h2, h3]
    ring

/-- C7 (counterexample): at `TotalSize = 2^63 - 1` and `ChunkSize = 1024`
with `delayMs = 50`, the stream.go:91 `int64` sum wraps negative, the
early return at stream.go:92-94 fires, and the emission performs zero
sleeps — while `max(ceil(totalSize/chunkSize) - 1, 0) = 2^53 - 1`.  This
refutes "the delay is applied exactly `max(total_chunks - 1, 0)` times"
with `total_chunks = ceil(total_size/chunk_size)` for every
`total_size >= 0`. -/
theorem paced_wrap_zero_sleeps :
    streamWriterWrite (2 ^ 63 - 1) 1024 50 false 1024 = []
      ∧ sleepCount (streamWriterWrite (2 ^ 63 - 1) 1024 50 false 1024) = 0
      ∧ ((2 ^ 63 - 1) + 1024 - 1) / 1024 - 1 = 9007199254740991 :=
  ⟨by decide, by decide, by decide⟩

/-- C7 (amended): in paced/framed mode with `delayMs > 0`, for `totalSize`
in the wrap-free region of the stream.go:91 `int64` computation
(`totalSize + chunkSize - 1 ≤ 2^63 - 1`), the inter-chunk sleep is
performed exactly `max(totalChunks - 1, 0)` times — before every chunk of
index `i > 0` and never before the first one — so the total time slept is
`(totalChunks - 1) * delayMs`, and the trace never starts with a sleep.
(Beyond that region the `int64` sum wraps and the emission returns with no
sleep at all.) -/
theorem paced_delay_count (totalSize chunkSize delayMs bufSize : Nat)
    (flushPerChunk : Bool) (hcs : 0 < chunkSize) (hb : 0 < bufSize)
    (hd : 0 < delayMs)
    (hnowrap : totalSize + chunkSize - 1 ≤ 2 ^ 63 - 1) :
    sleepCount (streamWriterWrite totalSize chunkSize delayMs flushPerChunk bufSize)
      = (totalSize + chunkSize - 1) / chunkSize - 1
    ∧ sleepMsSum (streamWriterWrite totalSize chunkSize delayMs flushPerChunk bufSize)
      = ((totalSize + chunkSize - 1) / chunkSize - 1) * delayMs
    ∧ sleepCount ((streamWriterWrite totalSize chunkSize delayMs flushPerChunk
        bufSize).take 1) = 0 := by
  have hnotfast : ¬(delayMs = 0 ∧ flushPerChunk = false) := fun hc => by omega
  rw [streamWriterWrite, if_neg hnotfast,
    totalChunksInt64_eq_ceil totalSize chunkSize hcs hnowrap]
  rcases hn : (totalSize + chunkSize - 1) / chunkSize with _ | m
  · rw [if_pos (by omega)]
    exact ⟨rfl, by simp [sleepMsSum], rfl⟩
  · have ht : 0 < totalSize := by
      by_contra ht0
      have hz : totalSize = 0 := by omega
      rw [hz, Nat.zero_add, Nat.div_eq_of_lt (by omega)] at hn
      exact absurd hn (by omega)
    rw [if_neg (by omega)]
    have htn : ((m + 1 : Nat) : Int).toNat = m + 1 := rfl
    rw [htn]
    have hloop : chunkLoop bufSize chunkSize delayMs flushPerChunk (m + 1) totalSize 0
        = (chunkWrites bufSize (min chunkSize totalSize)).map Ev.write
          ++ ((if flushPerChunk then [Ev.flush] else [])
            ++ chunkLoop bufSize chunkSize delayMs flushPerChunk m
                (totalSize - min chunkSize totalSize) 1) := by
      rw [chunkLoop, if_neg (by omega), List.nil_append, List.append_assoc]
    refine ⟨?_, ?_, ?_⟩
    · rw [hloop]
      simp only [sleepCount, List.countP_append]
      rw [countP_writes_eq_zero _ (fun _ => rfl), sleepCount_flush_if]
      have := sleepCount_chunkLoop_pos bufSize chunkSize delayMs flushPerChunk hd m
        (totalSize - min chunkSize totalSize) 1 (by omega)
      simp only [sleepCount] at this
      rw [this]
      simp [List.countP_cons]
    · rw [hloop]
      simp only [sleepMsSum, List.map_append, List.sum_append]
      have h2 := sleepMsSum_writes (chunkWrites bufSize (min chunkSize totalSize))
      have h3 := sleepMsSum_flush_if flushPerChunk
      have h4 := sleepMsSum_chunkLoop_pos bufSize chunkSize delayMs flushPerChunk hd m
        (totalSize - min chunkSize totalSize) 1 (by omega)
      simp only [sleepMsSum] at h2 h3 h4
      rw [h2, h3, h4]
      simp
    · rw [hloop]
      have hmin : 0 < min chunkSize totalSize := by omega
      rcases hm : min chunkSize totalSize with _ | t
      · omega
      · have hw : chunkWrites bufSize (t + 1)
            = min (t + 1) bufSize :: chunkWritesAux bufSize t (t + 1 - min (t + 1) bufSize) := by
          rw [chunkWrites, chunkWritesAux, if_neg (by omega)]
        rw [hw]
        rfl

/-- Witness for C7 (amended) at `totalSize = 5120`, `chunkSize = 1024`,
`delayMs = 50`, `bufSize = 1024`: wrap-free, 4 sleeps of 50 ms. -/
theorem paced_delay_count_witness :
    (0 < 1024 ∧ 0 < 50 ∧ 5120 + 1024 - 1 ≤ 2 ^ 63 - 1)
      ∧ sleepCount (streamWriterWrite 5120 1024 50 true 1024)
        = (5120 + 1024 - 1) / 1024 - 1 :=
  ⟨⟨by decide, by decide, by decide⟩,
    (paced_delay_count 5120 1024 50 1024 true (by decide) (by decide) (by decide)
      (by decide)).1⟩

/-! ### The pull path: `StreamWriter.Read`, and byte-level `WriteTo` -/

/-- `StreamWriter.Read` (stream.go:147-174): the bytes copied into the
destination of capacity `reqSize` when the cursor is at `written`.  Returns
`[]` together with `io.EOF` exactly when `written >= TotalSize`; otherwise
serves `min(reqSize, remaining, bufferSize - written % bufferSize)` bytes
starting at offset `written % bufferSize` of the borrowed buffer.  (With an
empty buffer the Go code would divide by zero; every theorem assumes the
borrowed buffer is non-empty.) -/
def swRead (buf : List Nat) (totalSize written reqSize : Nat) : List Nat :=
  if totalSize ≤ written then []
  else
    let remaining := totalSize - written
    let toWrite := min reqSize remaining
    let offset := written % buf.length
    let available := buf.length - offset
    (buf.drop offset).take (min toWrite available)

/-- Driving a `StreamWriter` by repeated `Read` calls until EOF, collecting
the bytes delivered.  `reqs i` is the destination capacity the transport
offers on the `i`-th call.  `fuel` bounds the number of calls; since every
successful call advances the cursor by at least one byte (non-empty buffer,
positive destination), `fuel = totalSize` suffices. -/
def readDrive (buf : List Nat) (totalSize : Nat) : (Nat → Nat) → Nat → Nat → List Nat
  | _, 0, _ => []
  | reqs, fuel + 1, written =>
    if totalSize ≤ written then []
    else
      let out := swRead buf totalSize written (reqs 0)
      out ++ readDrive buf totalSize (fun i => reqs (i + 1)) fuel (written + out.length)

/-- All bytes produced by pulling a `StreamWriter` with `Read` until EOF. -/
def readAll (buf : List Nat) (totalSize : Nat) (reqs : Nat → Nat) : List Nat :=
  readDrive buf totalSize reqs totalSize 0

/-- Byte-level `StreamWriter.WriteTo` (stream.go:179-205) on an error-free
sink: full copies of the borrowed buffer while `remaining >= bufferSize`,
then one final partial write.  Fuelled like the other loops. -/
def writeToBytesAux (buf : List Nat) : Nat → Nat → List Nat
  | 0, _ => []
  | fuel + 1, remaining =>
    if buf.length = 0 then []
    else if buf.length ≤ remaining then
      buf ++ writeToBytesAux buf fuel (remaining - buf.length)
    else buf.take remaining

/-- All bytes delivered by a single `WriteTo` of `totalSize` bytes. -/
def writeToBytes (buf : List Nat) (totalSize : Nat) : List Nat :=
  writeToBytesAux buf totalSize totalSize

/-- The specification-side byte sequence: the buffer content repeated
cyclically, read from cursor position `start`, truncated to `len` bytes. -/
def cyclicSeg (buf : List Nat) (start len : Nat) : List Nat :=
  (List.range len).map fun i => buf.getD ((start + i) % buf.length) 0

theorem cyclicSeg_add (buf : List Nat) (s a b : Nat) :
    cyclicSeg buf s (a + b) = cyclicSeg buf s a ++ cyclicSeg buf (s + a) b := by
  simp only [cyclicSeg, List.range_add, List.map_append, List.map_map]
  congr 1
  apply List.map_eq_map_iff.mpr
  intro i _
  simp only [Function.comp_apply]
  rw [Nat.add_assoc]

theorem cyclicSeg_mod (buf : List Nat) (s len : Nat) :
    cyclicSeg buf s len = cyclicSeg buf (s % buf.length) len := by
  simp only [cyclicSeg]
  apply List.map_eq_map_iff.mpr
  intro i _
  rw [Nat.mod_add_mod]

theorem cyclicSeg_small (buf : List Nat) (len : Nat) (hlen : len ≤ buf.length) :
    cyclicSeg buf 0 len = buf.take len := by
  refine List.ext_getElem ?_ ?_
  · simp [cyclicSeg]
    omega
  · intro i h1 h2
    simp only [cyclicSeg, List.getElem_map, List.getElem_range, List.getElem_take]
    have hi : i < len := by simpa [cyclicSeg] using h1
    have hiL : i < buf.length := by omega
    rw [Nat.zero_add, Nat.mod_eq_of_lt hiL, List.getD_eq_getElem buf 0 hiL]

theorem swRead_eq_cyclicSeg (buf : List Nat) (totalSize written reqSize : Nat)
    (hb : buf ≠ []) (hw : written < totalSize) :
    swRead buf totalSize written reqSize
      = cyclicSeg buf written
          (min (min reqSize (totalSize - written))
            (buf.length - written % buf.length)) := by
  have hL : 0 < buf.length := List.length_pos.mpr hb
  have hoff : written % buf.length < buf.length := Nat.mod_lt written hL
  rw [swRead, if_neg (by omega)]
  refine List.ext_getElem ?_ ?_
  · simp only [cyclicSeg, List.length_take, List.length_drop, List.length_map,
      List.length_range]
    omega
  · intro i h1 h2
    have hi : i < min (min reqSize (totalSize - written))
        (buf.length - written % buf.length) := by
      simp only [List.length_take, List.length_drop] at h1
      omega
    have hiL : written % buf.length + i < buf.length := by omega
    simp only [cyclicSeg, List.getElem_map, List.getElem_range, List.getElem_take,
      List.getElem_drop]
    have hdm := Nat.div_add_mod written buf.length
    have hmod : (written + i) % buf.length = written % buf.length + i := by
      have hrepr : written + i
          = written % buf.length + i + buf.length * (written / buf.length) := by
        omega
      rw [hrepr, Nat.add_mul_mod_self_left, Nat.mod_eq_of_lt hiL]
    rw [hmod, List.getD_eq_getElem buf 0 hiL]

theorem swRead_length (buf : List Nat) (totalSize written reqSize : Nat)
    (hw : written < totalSize) :
    (swRead buf totalSize written reqSize).length
      = min (min reqSize (totalSize - written))
          (buf.length - written % buf.length) := by
  rw [swRead, if_neg (by omega)]
  simp only [List.length_take, List.length_drop]
  omega

theorem readDrive_eq_cyclicSeg (buf : List Nat) (hb : buf ≠ []) (totalSize : Nat) :
    ∀ fuel written reqs, (∀ i : Nat, 1 ≤ reqs i) → totalSize - written ≤ fuel →
      readDrive buf totalSize reqs fuel written
        = cyclicSeg buf written (totalSize - written) := by
  have hL : 0 < buf.length := List.length_pos.mpr hb
  intro fuel
  induction fuel with
  | zero =>
    intro written reqs _ hfuel
    rw [show totalSize - written = 0 by omega]
    rfl
  | succ fuel ih =>
    intro written reqs hreq hfuel
    rw [readDrive]
    by_cases hw : totalSize ≤ written
    · rw [if_pos hw, show totalSize - written = 0 by omega]
      rfl
    · rw [if_neg hw]
      have hw' : written < totalSize := by omega
      have hoff : written % buf.length < buf.length := Nat.mod_lt written hL
      have hlen := swRead_length buf totalSize written (reqs 0) hw'
      have hr0 := hreq 0
      show swRead buf totalSize written (reqs 0)
          ++ readDrive buf totalSize (fun i => reqs (i + 1)) fuel
              (written + (swRead buf totalSize written (reqs 0)).length)
        = cyclicSeg buf written (totalSize - written)
      rw [hlen, swRead_eq_cyclicSeg buf totalSize written (reqs 0) hb hw',
        ih _ (fun i => reqs (i + 1)) (fun i => hreq (i + 1)) (by omega),
        ← cyclicSeg_add]
      congr 1
      omega

theorem writeToBytesAux_eq_cyclicSeg (buf : List Nat) (hb : buf ≠ []) :
    ∀ fuel remaining, remaining ≤ fuel →
      writeToBytesAux buf fuel remaining = cyclicSeg buf 0 remaining := by
  have hL : 0 < buf.length := List.length_pos.mpr hb
  intro fuel
  induction fuel with
  | zero =>
    intro remaining hf
    rw [show remaining = 0 by omega]
    rfl
  | succ fuel ih =>
    intro remaining hf
    rw [writeToBytesAux, if_neg (by omega)]
    by_cases hge : buf.length ≤ remaining
    · rw [if_pos hge, ih (remaining - buf.length) (by omega)]
      rw [show remaining = buf.length + (remaining - buf.length) by omega,
        cyclicSeg_add]
      congr 1
      · rw [cyclicSeg_small buf buf.length (Nat.le_refl _), List.take_length]
      · rw [cyclicSeg_mod buf (0 + buf.length), Nat.zero_add, Nat.mod_self]
        congr 1
        omega
    · rw [if_neg hge, cyclicSeg_small buf remaining (by omega)]

/-- C4: driving a `StreamWriter` through repeated `Read` (pull) calls until
EOF produces the same byte sequence as a single `WriteTo` (bulk hand-off)
on an error-free sink — for every `TotalSize`, every non-empty borrowed
buffer, and every schedule of positive destination capacities — and that
sequence is the buffer content repeated cyclically, truncated at
`TotalSize` bytes. -/
theorem pull_push_byte_identical (buf : List Nat) (totalSize : Nat)
    (reqs : Nat → Nat) (hb : buf ≠ []) (hreq : ∀ i : Nat, 1 ≤ reqs i) :
    readAll buf totalSize reqs = writeToBytes buf totalSize
      ∧ writeToBytes buf totalSize = cyclicSeg buf 0 totalSize := by
  have h1 : readAll buf totalSize reqs = cyclicSeg buf 0 totalSize := by
    rw [readAll, readDrive_eq_cyclicSeg buf hb totalSize totalSize 0 reqs hreq
      (by omega), Nat.sub_zero]
  have h2 : writeToBytes buf totalSize = cyclicSeg buf 0 totalSize :=
    writeToBytesAux_eq_cyclicSeg buf hb totalSize totalSize (Nat.le_refl _)
  exact ⟨h1.trans h2.symm, h2⟩

/-- Witness for C4: buffer `[65, 66]`, `totalSize = 5`, all pull requests
of capacity 3. -/
theorem pull_push_byte_identical_witness :
    (([65, 66] : List Nat) ≠ [] ∧ readAll [65, 66] 5 (fun _ => 3)
        = writeToBytes [65, 66] 5)
      ∧ writeToBytes [65, 66] 5 = cyclicSeg [65, 66] 0 5 :=
  ⟨⟨by decide,
      (pull_push_byte_identical [65, 66] 5 (fun _ => 3) (by decide)
        (fun _ => by show (1 : Nat) ≤ 3; decide)).1⟩,
    (pull_push_byte_identical [65, 66] 5 (fun _ => 3) (by decide)
      (fun _ => by show (1 : Nat) ≤ 3; decide)).2⟩

/-! ### C9: the emission cursor -/

/-- The cursor position after a sequence of `StreamWriter.Read` calls with
the given destination capacities: each call advances `written` by the
number of bytes it returned (stream.go:171). -/
def readCursorRun (buf : List Nat) (totalSize : Nat) (written : Nat)
    (reqs : List Nat) : Nat :=
  reqs.foldl (fun w r => w + (swRead buf totalSize w r).length) written

theorem swRead_length_le (buf : List Nat) (totalSize written reqSize : Nat) :
    (swRead buf totalSize written reqSize).length ≤ totalSize - written := by
  by_cases hw : totalSize ≤ written
  · rw [swRead, if_pos hw]
    exact Nat.zero_le _
  · rw [swRead_length buf totalSize written reqSize (by omega)]
    omega

theorem readCursorRun_bounds (buf : List Nat) (totalSize : Nat) :
    ∀ reqs written, written ≤ totalSize →
      written ≤ readCursorRun buf totalSize written reqs
        ∧ readCursorRun buf totalSize written reqs ≤ totalSize := by
  intro reqs
  induction reqs with
  | nil => intro written hw; exact ⟨Nat.le_refl _, hw⟩
  | cons r reqs ih =>
    intro written hw
    have hle := swRead_length_le buf totalSize written r
    have hstep := ih (written + (swRead buf totalSize written r).length) (by omega)
    exact ⟨Nat.le_trans (by omega) hstep.1, hstep.2⟩

/-- C9: the emission cursor is a monotone bounded counter.  A `Read` call
returns `(0, io.EOF)` exactly when `written ≥ TotalSize`; a call with
`written < TotalSize`, a non-empty destination and a non-empty borrowed
buffer returns `n > 0` bytes and advances the cursor by exactly `n`; and a
cursor starting `≤ TotalSize` never decreases and never exceeds
`TotalSize` across any sequence of `Read` calls. -/
theorem read_cursor_monotone_bounded (buf : List Nat)
    (totalSize written reqSize : Nat) (reqs : List Nat)
    (hw : written ≤ totalSize) :
    (totalSize ≤ written → swRead buf totalSize written reqSize = [])
    ∧ written + (swRead buf totalSize written reqSize).length ≤ totalSize
    ∧ (written < totalSize → buf ≠ [] → 1 ≤ reqSize →
        1 ≤ (swRead buf totalSize written reqSize).length)
    ∧ written ≤ readCursorRun buf totalSize written reqs
    ∧ readCursorRun buf totalSize written reqs ≤ totalSize := by
  refine ⟨?_, ?_, ?_, readCursorRun_bounds buf totalSize reqs written hw⟩
  · intro heof
    rw [swRead, if_pos heof]
  · have := swRead_length_le buf totalSize written reqSize
    omega
  · intro hlt hb hreq
    have hL : 0 < buf.length := List.length_pos.mpr hb
    have hoff : written % buf.length < buf.length := Nat.mod_lt written hL
    rw [swRead_length buf totalSize written reqSize hlt]
    omega

/-- Witness for C9: buffer `[65, 66, 67]`, `totalSize = 7`, cursor at 2,
destination capacity 4, then calls with capacities `[4, 4, 4]`. -/
theorem read_cursor_monotone_bounded_witness :
    (2 ≤ 7
      ∧ (7 ≤ 2 → swRead [65, 66, 67] 7 2 4 = []))
      ∧ 2 + (swRead [65, 66, 67] 7 2 4).length ≤ 7
      ∧ (2 < 7 → ([65, 66, 67] : List Nat) ≠ [] → 1 ≤ 4 →
          1 ≤ (swRead [65, 66, 67] 7 2 4).length)
      ∧ 2 ≤ readCursorRun [65, 66, 67] 7 2 [4, 4, 4]
      ∧ readCursorRun [65, 66, 67] 7 2 [4, 4, 4] ≤ 7 :=
  ⟨⟨by decide,
      (read_cursor_monotone_bounded [65, 66, 67] 7 2 4 [4, 4, 4] (by decide)).1⟩,
    (read_cursor_monotone_bounded [65, 66, 67] 7 2 4 [4, 4, 4] (by decide)).2⟩

/-! ### C5: `autoCleanupReader` resource release -/

/-- A call made by the transport on the `autoCleanupReader` returned by
`StreamResponseWithContentLength`: a pull (`Read` with a destination of
the given capacity) or a bulk hand-off (`WriteTo`). -/
inductive AcrOp where
  | read (reqSize : Nat)
  | writeTo
deriving DecidableEq, Repr

/-- Observable state of an `autoCleanupReader` (stream.go:261-297) plus
counters for the pool `Put` calls it has made: the wrapped
`StreamWriter`'s cursor, the `cleaned` flag, and how many times the
borrowed buffer and the `StreamWriter` have been returned to their pools. -/
structure AcrState where
  written : Nat
  cleaned : Bool
  bufPuts : Nat
  swPuts : Nat
deriving DecidableEq, Repr

/-- Initial state: fresh `StreamWriter` (cursor 0 after
`AcquireStreamWriter`), nothing cleaned, no `Put` performed. -/
def acrInit : AcrState :=
  { written := 0, cleaned := false, bufPuts := 0, swPuts := 0 }

/-- One call on the `autoCleanupReader`.  `Read` (stream.go:269-277)
forwards to `StreamWriter.Read` and, when that returns `io.EOF`
(`written >= TotalSize`) and `cleaned` is still false, sets `cleaned` and
returns both resources to their pools.  `WriteTo` (stream.go:280-288)
forwards to `StreamWriter.WriteTo` and releases the resources
unconditionally if not yet cleaned, whether or not the sink erred. -/
def acrStep (buf : List Nat) (totalSize : Nat) (s : AcrState) : AcrOp → AcrState
  | .read reqSize =>
    let out := swRead buf totalSize s.written reqSize
    if totalSize ≤ s.written ∧ s.cleaned = false then
      { written := s.written + out.length, cleaned := true,
        bufPuts := s.bufPuts + 1, swPuts := s.swPuts + 1 }
    else { s with written := s.written + out.length }
  | .writeTo =>
    if s.cleaned = false then
      { s with cleaned := true, bufPuts := s.bufPuts + 1, swPuts := s.swPuts + 1 }
    else s

/-- Run a finite sequence of transport calls against the reader. -/
def acrRun (buf : List Nat) (totalSize : Nat) (ops : List AcrOp) : AcrState :=
  ops.foldl (acrStep buf totalSize) acrInit

/-- C5 (counterexample): a terminating call sequence that ends before EOF
performs zero pool `Put`s.  With `TotalSize = 10`, a 4-byte buffer and a
single `Read` of capacity 5, the transfer ends early (cursor 4 < 10,
`cleaned` still false) and neither the buffer nor the `StreamWriter` is
ever returned — refuting "every terminating sequence of Read and WriteTo
calls triggers exactly one Put of each". -/
theorem acr_abandoned_read_zero_puts :
    (acrRun [65, 66, 67, 68] 10 [AcrOp.read 5]).bufPuts = 0
      ∧ (acrRun [65, 66, 67, 68] 10 [AcrOp.read 5]).swPuts = 0
      ∧ (acrRun [65, 66, 67, 68] 10 [AcrOp.read 5]).cleaned = false := by
  decide

theorem acrStep_invariant (buf : List Nat) (totalSize : Nat) (s : AcrState)
    (op : AcrOp)
    (h : s.bufPuts = (if s.cleaned then 1 else 0)
      ∧ s.swPuts = (if s.cleaned then 1 else 0)) :
    (acrStep buf totalSize s op).bufPuts
        = (if (acrStep buf totalSize s op).cleaned then 1 else 0)
      ∧ (acrStep buf totalSize s op).swPuts
        = (if (acrStep buf totalSize s op).cleaned then 1 else 0) := by
  obtain ⟨h1, h2⟩ := h
  cases op with
  | read reqSize =>
    rw [acrStep]
    by_cases hc : totalSize ≤ s.written ∧ s.cleaned = false
    · rw [if_pos hc]
      rw [hc.2] at h1 h2
      simp at h1 h2
      simp [h1, h2]
    · rw [if_neg hc]
      exact ⟨h1, h2⟩
  | writeTo =>
    rw [acrStep]
    by_cases hc : s.cleaned = false
    · rw [if_pos hc]
      rw [hc] at h1 h2
      simp at h1 h2
      simp [h1, h2]
    · rw [if_neg hc]
      exact ⟨h1, h2⟩

theorem acrRun_invariant (buf : List Nat) (totalSize : Nat) (ops : List AcrOp) :
    (acrRun buf totalSize ops).bufPuts
        = (if (acrRun buf totalSize ops).cleaned then 1 else 0)
      ∧ (acrRun buf totalSize ops).swPuts
        = (if (acrRun buf totalSize ops).cleaned then 1 else 0) := by
  rw [acrRun]
  generalize hs : acrInit = s0
  have h0 : s0.bufPuts = (if s0.cleaned then 1 else 0)
      ∧ s0.swPuts = (if s0.cleaned then 1 else 0) := by
    rw [← hs]
    exact ⟨rfl, rfl⟩
  clear hs
  induction ops generalizing s0 with
  | nil => exact h0
  | cons op ops ih =>
    exact ih _ (acrStep_invariant buf totalSize s0 op h0)

theorem acrStep_cleaned_mono (buf : List Nat) (totalSize : Nat) (s : AcrState)
    (op : AcrOp) (h : s.cleaned = true) :
    (acrStep buf totalSize s op).cleaned = true := by
  cases op with
  | read reqSize =>
    rw [acrStep, if_neg (by simp [h])]
    exact h
  | writeTo =>
    rw [acrStep, if_neg (by simp [h])]
    exact h

theorem acrRun_cleaned_mono (buf : List Nat) (totalSize : Nat)
    (ops : List AcrOp) (s0 : AcrState) (h : s0.cleaned = true) :
    (ops.foldl (acrStep buf totalSize) s0).cleaned = true := by
  induction ops generalizing s0 with
  | nil => exact h
  | cons op ops ih => exact ih _ (acrStep_cleaned_mono buf totalSize s0 op h)

theorem acrStep_writeTo_cleans (buf : List Nat) (totalSize : Nat)
    (s : AcrState) : (acrStep buf totalSize s AcrOp.writeTo).cleaned = true := by
  rw [acrStep]
  by_cases hc : s.cleaned = false
  · rw [if_pos hc]
  · rw [if_neg hc]
    revert hc
    cases h : s.cleaned <;> simp

/-- C5 (amended): across every finite sequence of `autoCleanupReader`
calls, the buffer and the `StreamWriter` are each returned to their pool
at most once, always the same number of times as each other, and exactly
once as soon as the sequence contains a `WriteTo` call or a `Read` call
made at or after EOF (`written ≥ TotalSize`); a run abandoned before EOF
that never calls `WriteTo` performs zero `Put`s (the `cleaned` flag stays
false and the counters equal the flag). -/
theorem acr_cleanup_at_most_once (buf : List Nat) (totalSize : Nat)
    (ops tail : List AcrOp) (reqSize : Nat) :
    ((acrRun buf totalSize ops).bufPuts
        = (if (acrRun buf totalSize ops).cleaned then 1 else 0)
      ∧ (acrRun buf totalSize ops).swPuts
        = (if (acrRun buf totalSize ops).cleaned then 1 else 0))
    ∧ (AcrOp.writeTo ∈ ops → (acrRun buf totalSize ops).cleaned = true)
    ∧ (totalSize ≤ (acrRun buf totalSize ops).written →
        (acrRun buf totalSize (ops ++ [AcrOp.read reqSize])).cleaned = true)
    ∧ (tail ≠ [] → tail.head? = some AcrOp.writeTo →
        (acrRun buf totalSize (ops ++ tail)).cleaned = true) := by
  refine ⟨acrRun_invariant buf totalSize ops, ?_, ?_, ?_⟩
  · intro hmem
    obtain ⟨pre, post, hsplit⟩ := List.append_of_mem hmem
    rw [hsplit, acrRun, List.foldl_append]
    show (List.foldl (acrStep buf totalSize)
      (acrStep buf totalSize (List.foldl (acrStep buf totalSize) acrInit pre)
        AcrOp.writeTo) post).cleaned = true
    exact acrRun_cleaned_mono buf totalSize post _
      (acrStep_writeTo_cleans buf totalSize _)
  · intro heof
    rw [acrRun, List.foldl_append]
    show (acrStep buf totalSize (acrRun buf totalSize ops)
      (AcrOp.read reqSize)).cleaned = true
    rw [acrStep]
    by_cases hc : (acrRun buf totalSize ops).cleaned = false
    · rw [if_pos ⟨heof, hc⟩]
    · rw [if_neg (fun hcc => hc hcc.2)]
      revert hc
      cases h : (acrRun buf totalSize ops).cleaned <;> simp
  · intro hne hhead
    match tail, hhead with
    | AcrOp.writeTo :: rest, _ =>
      rw [acrRun, show ops ++ AcrOp.writeTo :: rest
          = (ops ++ [AcrOp.writeTo]) ++ rest by simp, List.foldl_append,
        List.foldl_append]
      exact acrRun_cleaned_mono buf totalSize rest _
        (acrStep_writeTo_cleans buf totalSize _)

/-- Witness for C5 (amended): two reads to EOF then a redundant `WriteTo`
still yield exactly one `Put` of each resource. -/
theorem acr_cleanup_at_most_once_witness :
    ((acrRun [65, 66] 3 [AcrOp.read 2, AcrOp.read 2, AcrOp.read 2,
          AcrOp.writeTo]).bufPuts
        = (if (acrRun [65, 66] 3 [AcrOp.read 2, AcrOp.read 2, AcrOp.read 2,
            AcrOp.writeTo]).cleaned then 1 else 0))
      ∧ (AcrOp.writeTo ∈ [AcrOp.read 2, AcrOp.read 2, AcrOp.read 2,
          AcrOp.writeTo] →
        (acrRun [65, 66] 3 [AcrOp.read 2, AcrOp.read 2, AcrOp.read 2,
          AcrOp.writeTo]).cleaned = true) :=
  ⟨(acr_cleanup_at_most_once [65, 66] 3
      [AcrOp.read 2, AcrOp.read 2, AcrOp.read 2, AcrOp.writeTo] [] 1).1.1,
    (acr_cleanup_at_most_once [65, 66] 3
      [AcrOp.read 2, AcrOp.read 2, AcrOp.read 2, AcrOp.writeTo] [] 1).2.1⟩

/-! ### C6: the drain flag and the Connection header -/

/-- The only store the program ever performs on `common.Draining`:
`common.Draining.Store(true)` in the shutdown sequence (main.go:308).  No
other `Store` call exists in the repository, so every store event writes
`true`. -/
inductive DrainOp where
  | store
deriving DecidableEq, Repr

/-- `Draining` at process start: the zero value of `atomic.Bool`
(types.go:33) is `false`. -/
def drainInit : Bool := false

/-- Effect of the program's single store site on the flag. -/
def drainStep (_ : Bool) : DrainOp → Bool
  | .store => true

/-- The flag after any sequence of the program's store events. -/
def drainRun (ops : List DrainOp) : Bool :=
  ops.foldl drainStep drainInit

/-- `SetConnectionHeader` (the `common` helper): selects the
`Connection: close` header value when `Draining.Load()` is true, and
`Connection: keep-alive` otherwise. -/
def setConnectionHeaderValue (draining : Bool) : String :=
  if draining then "close" else "keep-alive"

theorem drainStep_absorb_true (l : List DrainOp) :
    List.foldl drainStep true l = true := by
  induction l with
  | nil => rfl
  | cons op l ih => cases op; exact ih

theorem drainRun_append (ops more : List DrainOp) (h : drainRun ops = true) :
    drainRun (ops ++ more) = true := by
  rw [drainRun, List.foldl_append]
  show List.foldl drainStep (drainRun ops) more = true
  rw [h]
  exact drainStep_absorb_true more

/-- C6: the drain flag is monotonic.  At process start it is `false`; the
only store in the program writes `true`, so after any non-empty sequence
of store events every later read returns `true` and keeps returning `true`
under further events; and every response header written while the flag is
set carries `Connection: close`, while before drain it carries
`Connection: keep-alive`. -/
theorem drain_monotonic_connection_close (ops more : List DrainOp)
    (hne : ops ≠ []) :
    drainRun [] = false
    ∧ drainRun ops = true
    ∧ drainRun (ops ++ more) = true
    ∧ setConnectionHeaderValue (drainRun (ops ++ more)) = "close"
    ∧ setConnectionHeaderValue drainInit = "keep-alive" := by
  have hset : drainRun ops = true := by
    match ops, hne with
    | op :: rest, _ =>
      cases op
      rw [drainRun, List.foldl_cons]
      exact drainStep_absorb_true rest
  have happ := drainRun_append ops more hset
  exact ⟨rfl, hset, happ, by rw [happ]; rfl, rfl⟩

/-- Witness for C6: one store event followed by one more. -/
theorem drain_monotonic_connection_close_witness :
    ([DrainOp.store] ≠ []
      ∧ drainRun [DrainOp.store] = true)
      ∧ setConnectionHeaderValue (drainRun ([DrainOp.store] ++ [DrainOp.store]))
        = "close" :=
  ⟨⟨by decide,
      (drain_monotonic_connection_close [DrainOp.store] [DrainOp.store]
        (by decide)).2.1⟩,
    (drain_monotonic_connection_close [DrainOp.store] [DrainOp.store]
      (by decide)).2.2.2.1⟩

/-! ### C8: the pattern generator and pool pre-fill -/

/-- The cycling alphabet of `InitBinaryBufferPool` (stream.go:26), as byte
values. -/
def basePattern : List Nat :=
  "ABCDEFGHIJKLMNOPQRSTUVWXYZ0123456789".data.map Char.toNat

/-- The `DataPattern` construction of `InitBinaryBufferPool`
(stream.go:27-30): byte `i` of the `bufferSize`-byte pattern is
`basePattern[i % len(basePattern)]`. -/
def mkDataPattern (bufferSize : Nat) : List Nat :=
  (List.range bufferSize).map fun i => basePattern.getD (i % basePattern.length) 0

/-- The fill loop of `NewChunkBufferPool`'s `New` (stream.go:318-323):
starting from an empty prefix, repeatedly `copy` the pattern into the
remaining space (`copy` transfers `min(space, len(pattern))` bytes) until
the chunk is full.  Fuelled; `fuel = chunkSize` suffices for a non-empty
pattern. -/
def fillChunkAux (pattern : List Nat) : Nat → Nat → List Nat
  | 0, _ => []
  | fuel + 1, space =>
    if space = 0 then []
    else
      pattern.take (min pattern.length space)
        ++ fillChunkAux pattern fuel (space - min pattern.length space)

/-- A chunk as created by `NewChunkBufferPool`'s `New` (stream.go:314-325):
`make([]byte, chunkSize)` (zero-filled) then, when a fill pattern is
provided, the repeated-copy pre-fill. -/
def newChunk (chunkSize : Nat) (fillPattern : List Nat) : List Nat :=
  if 0 < fillPattern.length then fillChunkAux fillPattern chunkSize chunkSize
  else List.replicate chunkSize 0

theorem basePattern_length : basePattern.length = 36 := by
  decide

theorem fillChunkAux_eq_cyclicSeg (pattern : List Nat) (hp : pattern ≠ []) :
    ∀ fuel space, space ≤ fuel →
      fillChunkAux pattern fuel space = cyclicSeg pattern 0 space := by
  have hL : 0 < pattern.length := List.length_pos.mpr hp
  intro fuel
  induction fuel with
  | zero =>
    intro space hf
    rw [show space = 0 by omega]
    rfl
  | succ fuel ih =>
    intro space hf
    rw [fillChunkAux]
    by_cases hz : space = 0
    · rw [if_pos hz, hz]
      rfl
    · rw [if_neg hz, ih (space - min pattern.length space) (by omega)]
      by_cases hge : pattern.length ≤ space
      · rw [show min pattern.length space = pattern.length by omega]
        rw [show space = pattern.length + (space - pattern.length) by omega,
          cyclicSeg_add]
        congr 1
        · rw [List.take_length, cyclicSeg_small pattern pattern.length
            (Nat.le_refl _), List.take_length]
        · rw [cyclicSeg_mod pattern (0 + pattern.length), Nat.zero_add,
            Nat.mod_self]
          congr 1
          omega
      · rw [show min pattern.length space = space by omega]
        rw [show space - space = 0 by omega]
        rw [cyclicSeg_small pattern space (by omega)]
        simp [cyclicSeg]

theorem mkDataPattern_eq_cyclicSeg (bufferSize : Nat) :
    mkDataPattern bufferSize = cyclicSeg basePattern 0 bufferSize := by
  simp only [mkDataPattern, cyclicSeg]
  apply List.map_eq_map_iff.mpr
  intro i _
  rw [Nat.zero_add]

/-- C8: the pattern generator is pure and total: for every buffer size `L`
it produces exactly `L` bytes, byte `i` being
`"ABCDEFGHIJKLMNOPQRSTUVWXYZ0123456789"[i % 36]`; and a pool buffer
pre-filled from that pattern (`NewChunkBufferPool`'s `New` with
`chunkSize = L` and `fillPattern = DataPattern`, as wired by
`InitBinaryBufferPool`) carries exactly the same byte sequence. -/
theorem pattern_generator_pure (L i : Nat) (hi : i < L) :
    (mkDataPattern L).length = L
    ∧ (mkDataPattern L).getD i 0 = basePattern.getD (i % 36) 0
    ∧ newChunk L (mkDataPattern L) = mkDataPattern L := by
  refine ⟨by simp [mkDataPattern], ?_, ?_⟩
  · rw [mkDataPattern, List.getD_eq_getElem _ 0 (by simpa using hi),
      List.getElem_map, List.getElem_range, basePattern_length]
  · have hLpat : (mkDataPattern L).length = L := by simp [mkDataPattern]
    have hLpos : 0 < L := by omega
    have hne : mkDataPattern L ≠ [] := by
      intro hfalse
      rw [hfalse, List.length_nil] at hLpat
      omega
    rw [newChunk, if_pos (by omega),
      fillChunkAux_eq_cyclicSeg (mkDataPattern L) hne L L (Nat.le_refl _),
      cyclicSeg_small (mkDataPattern L) L (by omega),
      List.take_of_length_le (by omega)]

/-- Witness for C8 at `L = 40`, `i = 37`: byte 37 wraps to the second
alphabet character. -/
theorem pattern_generator_pure_witness :
    37 < 40
      ∧ ((mkDataPattern 40).length = 40
        ∧ (mkDataPattern 40).getD 37 0 = basePattern.getD (37 % 36) 0
        ∧ newChunk 40 (mkDataPattern 40) = mkDataPattern 40) :=
  ⟨by decide, pattern_generator_pure 40 37 (by decide)⟩

/-! ### C10: `parseSize` of the binary endpoint -/

/-- Accumulate a base-10 value over a digit list, failing on any non-digit
character (the digit scan inside Go's `strconv.ParseInt` for base 10). -/
def decDigits (cs : List Char) : Option Nat :=
  cs.foldl
    (fun acc c =>
      match acc with
      | none => none
      | some v => if c.isDigit then some (v * 10 + (c.toNat - 48)) else none)
    (some 0)

/-- `strconv.ParseInt(s, 10, 64)`: optional sign, at least one decimal
digit, no other characters, result within the signed 64-bit range —
otherwise an error (`none`). -/
def parseInt64 (s : String) : Option Int :=
  match s.data with
  | [] => none
  | c :: rest =>
    let neg : Bool := c = '-'
    let digits := if c = '-' ∨ c = '+' then rest else c :: rest
    if digits.isEmpty then none
    else
      match decDigits digits with
      | none => none
      | some v =>
        let i : Int := if neg then -(v : Int) else (v : Int)
        if i < -(2 ^ 63) ∨ (2 ^ 63 - 1) < i then none else some i

/-- The pre-cached `commonSizes` map of `binary/handler.go:27-42`. -/
def commonSizes : List (String × Int) :=
  [("1K", 1024), ("1k", 1024),
   ("10K", 10 * 1024), ("10k", 10 * 1024),
   ("100K", 100 * 1024), ("100k", 100 * 1024),
   ("1M", 1024 * 1024), ("1m", 1024 * 1024),
   ("10M", 10 * 1024 * 1024), ("10m", 10 * 1024 * 1024),
   ("100M", 100 * 1024 * 1024), ("100m", 100 * 1024 * 1024),
   ("500M", 500 * 1024 * 1024), ("500m", 500 * 1024 * 1024),
   ("1G", 1024 * 1024 * 1024), ("1g", 1024 * 1024 * 1024),
   ("10G", 10 * 1024 * 1024 * 1024), ("10g", 10 * 1024 * 1024 * 1024),
   ("100G", 100 * 1024 * 1024 * 1024), ("100g", 100 * 1024 * 1024 * 1024),
   ("1000G", 1000 * 1024 * 1024 * 1024), ("1000g", 1000 * 1024 * 1024 * 1024)]

/-- The suffix switch of `parseSize` (handler.go:115-124): K/M/G/T in
either case select a power-of-1024 multiplier, anything else leaves
`multiplier = 0`. -/
def suffixMultiplier (c : Char) : Int :=
  match c with
  | 'K' | 'k' => 1024
  | 'M' | 'm' => 1024 * 1024
  | 'G' | 'g' => 1024 * 1024 * 1024
  | 'T' | 't' => 1024 * 1024 * 1024 * 1024
  | _ => 0

/-- `parseSize` (binary/handler.go:97-144).  `none` models the error
return (`0, strEmptySize` / `0, strInvalid`).  Empty input errors; a
pre-cached common size is returned directly; a recognised suffix on a
string of length > 1 multiplies the parsed positive number by the
multiplier in `int64` arithmetic (wrapping on overflow, as `num *
multiplier` does in Go); otherwise the whole string must parse as a
positive integer. -/
def parseSize (s : String) : Option Int :=
  if s.data.length < 1 then none
  else
    match commonSizes.lookup s with
    | some cached => some cached
    | none =>
      if 1 < s.data.length
          ∧ 0 < suffixMultiplier (s.data.getD (s.data.length - 1) ' ') then
        match parseInt64 (String.mk (s.data.take (s.data.length - 1))) with
        | some num =>
          if 0 < num then
            some (int64Wrap
              (num * suffixMultiplier (s.data.getD (s.data.length - 1) ' ')))
          else none
        | none => none
      else
        match parseInt64 s with
        | some size => if 0 < size then some size else none
        | none => none

/-- C10: `parseSize` is documented (handler.go:96) to return an error
whenever the value is non-positive, and the claim asserts every non-error
result is strictly positive.  The code violates this: `"8388608T"` parses
as `2^23 * 2^40 = 2^63`, which wraps in `int64` arithmetic to `-2^63`, a
negative value returned without error.  Well-behaved inputs like `"5T"`
meanwhile multiply exactly as claimed. -/
theorem parseSize_overflow_not_positive :
    parseSize "8388608T" = some (-9223372036854775808)
      ∧ ¬ (0 : Int) < -9223372036854775808
      ∧ parseSize "5T" = some (5 * 1024 * 1024 * 1024 * 1024)
      ∧ parseSize "11111" = some 11111
      ∧ parseSize "0" = none
      ∧ parseSize "-100" = none := by
  refine ⟨by decide, by decide, by decide, by decide, by decide, by decide⟩

end HP
